import Mathlib

/-!
Shallow embedding of the `http/design` package of goa (files
`http/design/root.go` and `http/design/file_server.go`) together with the
fragments of the Go standard library that those files call
(`strings.Split`, `path.Join`/`path.Clean`, `net/url.Parse`,
`sort.SliceStable`, `sort.Strings`) and the small data records declared in
other files of the same repository (`ServiceExpr`, `design.AttributeExpr`,
`design.MappedAttributeExpr`).

Go strings are modelled as `List Char`; Go slices as `List`; nil pointers
as `Option.none`; a Go runtime fault (nil-pointer dereference) as the
`GoResult.nilDeref` outcome.  Methods with a pointer receiver that mutate
the receiver are modelled in state-passing style: they return the result
together with the updated receiver.
-/

namespace GoaHTTPDesign

/-! ## Model of strings.Split with a one-character separator -/

/-- Helper of `splitOnChar`: prepend a character to the first chunk of a
split result (the result of splitting is never empty, the `[]` case is
unreachable). -/
def consHead (c : Char) : List (List Char) → List (List Char)
  | [] => [[c]]
  | h :: t => (c :: h) :: t

/-- Model of Go `strings.Split(s, sep)` for a one-character separator:
splits around every occurrence of `sep`; the result always has at least
one chunk, and `Split("", sep) = [""]`. -/
def splitOnChar (sep : Char) : List Char → List (List Char)
  | [] => [[]]
  | c :: rest =>
    if c = sep then [] :: splitOnChar sep rest
    else consHead c (splitOnChar sep rest)

/-! ## NameMap (root.go lines 260-268) -/

/-- Embedding of `NameMap` from `http/design/root.go`:
`elems := strings.Split(encoded, ":")`, the attribute name is `elems[0]`
(a split result is never empty, so the index is safe and `headD` with an
arbitrary default is faithful), and the element name is `elems[1]` when
`len(elems) > 1`, else the attribute name. -/
def NameMap (encoded : List Char) : List Char × List Char :=
  let elems := splitOnChar ':' encoded
  let attName := elems.headD []
  let name := elems.getD 1 attName
  (attName, name)

/-! ## The wildcard regular expression (root.go lines 17-19, 245-253)

`WildcardRegex = regexp.MustCompile("/{\\*?([a-zA-Z0-9_]+)}")`.
A match is `/` `{` an optional `*` a non-empty greedy run of word
characters captured as group 1, then `}`.  Because the word-character
class contains neither `*` nor `}` nor `/`, matching at a given start
position is deterministic, and no later match can begin strictly inside
an earlier match (every match begins with `/` and a match contains no
other `/`).  Scanning every position therefore finds exactly the
non-overlapping left-to-right matches that `FindAllStringSubmatch`
returns, so the scanner below does not need to skip over a found match. -/

/-- One character of the class `[a-zA-Z0-9_]` of `WildcardRegex`. -/
def isWordChar (c : Char) : Bool :=
  c.isAlpha || c.isDigit || c == '_'

/-- Greedy scan of `[a-zA-Z0-9_]+`: the longest word-character prefix and
the remaining suffix. -/
def scanName : List Char → List Char × List Char
  | [] => ([], [])
  | c :: rest =>
    if isWordChar c then
      let p := scanName rest
      (c :: p.1, p.2)
    else ([], c :: rest)

/-- Consume the optional `*` of `\*?`: drop a leading star, keep
anything else. -/
def dropStar : List Char → List Char
  | [] => []
  | c :: r => if c = '*' then r else c :: r

/-- Close a wildcard match: after the greedy name scan, the next
character must be the closing brace and the captured name must be
non-empty. -/
def closeWildcard : List Char → List Char → Option (List Char × List Char)
  | name, '}' :: rest2 => if name.isEmpty then none else some (name, rest2)
  | _, _ => none

/-- Attempt to match `{\*?([a-zA-Z0-9_]+)}` (the part of `WildcardRegex`
after the leading `/`) at the head of the input; on success return the
captured group and the suffix after the closing brace. -/
def tryMatchWildcard : List Char → Option (List Char × List Char)
  | '{' :: rest =>
    let p := scanName (dropStar rest)
    closeWildcard p.1 p.2
  | _ => none

/-- Record the captured group of a successful match attempt in front of
the names found further right. -/
def scanStep : Option (List Char × List Char) → List (List Char) → List (List Char)
  | some p, found => p.1 :: found
  | none, found => found

/-- All captured groups of the matches of `WildcardRegex`, left to right
(see the header comment: scanning every `/` without skipping found
matches coincides with `FindAllStringSubmatch`). -/
def scanWildcards : List Char → List (List Char)
  | [] => []
  | c :: rest =>
    if c = '/' then scanStep (tryMatchWildcard rest) (scanWildcards rest)
    else scanWildcards rest

/-- Embedding of `ExtractWildcards` from `http/design/root.go`: the first
capture group of every match of `WildcardRegex`, in order of
appearance. -/
def ExtractWildcards (path : List Char) : List (List Char) :=
  scanWildcards path

/-- Model of `WildcardRegex.MatchString`: does the wildcard regular
expression match anywhere in the input (a successful attempt at some `/`
stops the scan with true)? -/
def wildcardMatch : List Char → Bool
  | [] => false
  | c :: rest =>
    if c = '/' then (tryMatchWildcard rest).isSome || wildcardMatch rest
    else wildcardMatch rest

/-! ## Model of Go path.Clean and path.Join (file_server.go calls path.Join)

`path.Clean` applies purely lexical processing: it replaces runs of
slashes by one slash, drops `.` elements, resolves `..` elements against
preceding non-`..` elements (dropping a `..` that would climb above the
root of a rooted path, and keeping leading `..` elements of a relative
path), returns `.` for an empty relative result, and preserves
rooted-ness.  The segment/stack formulation below is the standard
equivalent of the in-place byte scan of Go `path.Clean`. -/

/-- One step of `path.Clean`: process the next slash-separated segment
against the stack of already-kept segments (most recent first). -/
def cleanPush (rooted : Bool) (stack : List (List Char)) (seg : List Char) :
    List (List Char) :=
  if seg = [] ∨ seg = ['.'] then stack
  else if seg = ['.', '.'] then
    match stack with
    | s :: rest => if s = ['.', '.'] then seg :: s :: rest else rest
    | [] => if rooted then [] else [seg]
  else seg :: stack

/-- Join segments with single slashes (the inverse of splitting, for
segments that contain no slash). -/
def joinSegs : List (List Char) → List Char
  | [] => []
  | [s] => s
  | s :: rest => s ++ '/' :: joinSegs rest

/-- Cleaned segment stack of a path: fold the cleaner over the
slash-separated segments and restore left-to-right order. -/
def cleanStack (rooted : Bool) (segs : List (List Char)) : List (List Char) :=
  (segs.foldl (cleanPush rooted) []).reverse

/-- Model of Go `path.Clean`. -/
def pathClean (p : List Char) : List Char :=
  if p = [] then ['.']
  else
    let rooted : Bool := p.head? = some '/'
    let out := joinSegs (cleanStack rooted (splitOnChar '/' p))
    if rooted then '/' :: out
    else if out = [] then ['.'] else out

/-- Model of Go `path.Join`: drop leading empty elements, join the rest
(including later empty elements) with slashes and clean the result; all
elements empty yields the empty string without cleaning. -/
def pathJoin (elems : List (List Char)) : List Char :=
  match elems.dropWhile List.isEmpty with
  | [] => []
  | es => pathClean (joinSegs es)

/-! ## FileServerExpr (file_server.go)

The Go struct also carries `Docs` (external documentation pointer) and
`Metadata` (generator-specific key/value pairs) and a `Service`
back-reference to the owning service; none of them is read by `Finalize`
or `IsDir` (`Finalize` reads only `Root.Path` and `f.Service.Path`, which
the embedding passes explicitly to avoid the cyclic back-reference), so
the model keeps only the remaining fields. -/

structure FileServerExpr where
  Description : List Char
  FilePath : List Char
  RequestPath : List Char
deriving DecidableEq

/-- Embedding of `(*FileServerExpr).Finalize` from
`http/design/file_server.go`: `f.RequestPath = path.Join(Root.Path,
f.Service.Path, f.RequestPath)`, then a `/` is prepended unless the
result already starts with one.  `rootPath` stands for the global
`Root.Path` and `svcPath` for `f.Service.Path`. -/
def Finalize (rootPath svcPath : List Char) (f : FileServerExpr) :
    FileServerExpr :=
  let p := pathJoin [rootPath, svcPath, f.RequestPath]
  let p := if p.head? = some '/' then p else '/' :: p
  { f with RequestPath := p }

/-- Embedding of `(*FileServerExpr).IsDir` from
`http/design/file_server.go`: `WildcardRegex.MatchString(f.RequestPath)`. -/
def IsDir (f : FileServerExpr) : Bool :=
  wildcardMatch f.RequestPath

/-! ## The service and root data model (root.go)

`ServiceExpr` is declared in `http/design/service.go`, which is not part
of the analysed sources; the fields below are the ones `root.go` reads.
Modelled from the spec: a service node owns an ordered endpoint list and
an ordered static-asset (file server) list, carries a relative path
prefix and an optional parent-service name, and `Name()` returns the name
of the embedded transport-agnostic service definition. -/

structure EndpointExpr where
  Name : List Char
deriving DecidableEq

structure ServiceExpr where
  Name : List Char
  ParentName : List Char
  Path : List Char
  HTTPEndpoints : List EndpointExpr
  FileServers : List FileServerExpr
deriving DecidableEq

/-- Model of a member of `design.Root.API.Servers` (only the URL is read
by `Schemes`). -/
structure ServerExpr where
  URL : List Char
deriving DecidableEq

/-- Model of `design.APIExpr` (only the server list is read). -/
structure APIExpr where
  Servers : List ServerExpr
deriving DecidableEq

/-- Model of the transport-agnostic `design.RootExpr` (only `API` is
read). -/
structure DesignRoot where
  API : APIExpr
deriving DecidableEq

/-- Minimal model of `design.DataType`: an object type with its field
names, or some other type tagged by its name. -/
inductive DataType where
  | object : List (List Char) → DataType
  | primitive : List Char → DataType
deriving DecidableEq

/-- Minimal model of `design.AttributeExpr`.  Only the type is relevant
to the analysed accessors; the Go field is named `Type`, a reserved word
here, hence `typ`. -/
structure AttributeExpr where
  typ : DataType
deriving DecidableEq

/-- Embedding of `RootExpr` from `http/design/root.go`.  `Design` is a
pointer in Go, hence an `Option`; the unexported `params` and `headers`
fields are nil until first access, hence `Option`; `HTTPErrors` and
`Metadata` are not read by any analysed method and are omitted. -/
structure RootExpr where
  Design : Option DesignRoot
  Path : List Char
  Consumes : List (List Char)
  Produces : List (List Char)
  HTTPServices : List ServiceExpr
  params : Option AttributeExpr
  headers : Option AttributeExpr
deriving DecidableEq

/-! ## Schemes (root.go lines 125-147)

`net/url.Parse` returns `(*URL, error)` and returns a nil pointer
whenever it returns a non-nil error, so the embedding models it as an
oracle `String -> Option URL`: `some u` for a successful parse, `none`
for a parse error (in which case the Go caller holds a nil pointer).
The theorems quantify over the oracle, so nothing depends on which
strings actually fail to parse. -/

structure URLExpr where
  Scheme : List Char
deriving DecidableEq

/-- Outcome of a Go computation that may fault on a nil-pointer
dereference. -/
inductive GoResult (α : Type) where
  | ok : α → GoResult α
  | nilDeref : GoResult α
deriving DecidableEq

/-- The server loop of `Schemes`: for each server, parse its URL; when
`err != nil` the code executes `schemes[u.Scheme] = true` with `u = nil`,
a nil-pointer dereference; when `err == nil` nothing is inserted into the
set. -/
def collectSchemes (parse : List Char → Option URLExpr) :
    List ServerExpr → List (List Char) → GoResult (List (List Char))
  | [], acc => .ok acc
  | s :: rest, acc =>
    match parse s.URL with
    | some _ => collectSchemes parse rest acc
    | none => .nilDeref

/-- Lexicographic strict order on strings (model of Go string `<`). -/
def strLt : List Char → List Char → Bool
  | [], [] => false
  | [], _ :: _ => true
  | _ :: _, [] => false
  | a :: as, b :: bs => if a = b then strLt as bs else decide (a < b)

/-- Stable insertion sort in the shape of Go's `sort.SliceStable`:
elements are taken left to right and each new element moves left past
every immediate predecessor `d` with `less x d`.  For slices of fewer
than 20 elements Go `sort.SliceStable` performs exactly this insertion
sort; for longer slices it additionally merges sorted 20-blocks, which is
not modelled (no theorem below depends on the resulting permutation for
such lengths, only on it being a permutation). -/
def insertRev {α : Type} (less : α → α → Bool) (x : α) : List α → List α
  | [] => [x]
  | d :: ds => if less x d then d :: insertRev less x ds else x :: d :: ds

/-- Stable sort, see `insertRev`. -/
def sortSliceStable {α : Type} (less : α → α → Bool) (l : List α) : List α :=
  l.foldl (fun acc x => (insertRev less x acc.reverse).reverse) []

/-- Model of `sort.Strings` on a deduplicated set: sorts
lexicographically (stability is irrelevant on a set). -/
def sortStrings (l : List (List Char)) : List (List Char) :=
  sortSliceStable strLt l

/-- Embedding of `(*RootExpr).Schemes` from `http/design/root.go`: nil
design gives nil; otherwise the server loop runs (see `collectSchemes`);
an empty scheme set gives nil, a non-empty one is listed and sorted. -/
def Schemes (parse : List Char → Option URLExpr) (r : RootExpr) :
    GoResult (List (List Char)) :=
  match r.Design with
  | none => .ok []
  | some d =>
    match collectSchemes parse d.API.Servers [] with
    | .nilDeref => .nilDeref
    | .ok schemes =>
      if schemes.isEmpty then .ok []
      else .ok (sortStrings schemes)

/-- The server list `Schemes` iterates over. -/
def rootServers (r : RootExpr) : List ServerExpr :=
  match r.Design with
  | none => []
  | some d => d.API.Servers

/-! ## Headers / Params / MappedHeaders / MappedParams
(root.go lines 172-196) -/

/-- Embedding of `(*RootExpr).Headers`: if the `headers` field is nil it
is set to a fresh empty object-typed attribute; the field's value is
returned.  State-passing: the returned root is the receiver after the
call. -/
def Headers (r : RootExpr) : AttributeExpr × RootExpr :=
  match r.headers with
  | none =>
    let a : AttributeExpr := { typ := DataType.object [] }
    (a, { r with headers := some a })
  | some a => (a, r)

/-- Embedding of `(*RootExpr).Params`, the `params` twin of `Headers`. -/
def Params (r : RootExpr) : AttributeExpr × RootExpr :=
  match r.params with
  | none =>
    let a : AttributeExpr := { typ := DataType.object [] }
    (a, { r with params := some a })
  | some a => (a, r)

/-- Modelled from the spec: `design.NewMappedAttributeExpr` (declared in
the transport-agnostic design package, not among the analysed sources)
wraps the raw attribute it is handed in a merge-aware mapped view; a nil
argument is wrapped as nil, nothing is allocated in the root. -/
structure MappedAttributeExpr where
  att : Option AttributeExpr
deriving DecidableEq

/-- Modelled from the spec: constructor of the mapped view, see
`MappedAttributeExpr`. -/
def NewMappedAttributeExpr (att : Option AttributeExpr) :
    MappedAttributeExpr :=
  { att := att }

/-- Embedding of `(*RootExpr).MappedHeaders`: wraps the raw `headers`
field (no lazy initialization); the receiver is unchanged. -/
def MappedHeaders (r : RootExpr) : MappedAttributeExpr × RootExpr :=
  (NewMappedAttributeExpr r.headers, r)

/-- Embedding of `(*RootExpr).MappedParams`: wraps the raw `params`
field (no lazy initialization); the receiver is unchanged. -/
def MappedParams (r : RootExpr) : MappedAttributeExpr × RootExpr :=
  (NewMappedAttributeExpr r.params, r)

/-- Model of adding a named attribute to an object-typed attribute.
Modelled from the spec: the DSL attaches attributes through the pointer
returned by `Headers`/`Params`; since that pointer aliases the root's
field, the attachment is an update of the root's field. -/
def addField (t : DataType) (n : List Char) : DataType :=
  match t with
  | .object fs => .object (fs ++ [n])
  | t => t

/-- Attach an attribute through the container reference returned by
`Headers` (see `addField`). -/
def attachHeader (r : RootExpr) (n : List Char) : RootExpr :=
  { r with headers := r.headers.map fun a => { a with typ := addField a.typ n } }

/-- Attach an attribute through the container reference returned by
`Params` (see `addField`). -/
def attachParam (r : RootExpr) (n : List Char) : RootExpr :=
  { r with params := r.params.map fun a => { a with typ := addField a.typ n } }

/-! ## WalkSets (root.go lines 204-232) -/

/-- Model of `eval.Expression` restricted to the three kinds of
expressions `WalkSets` emits. -/
inductive Expression where
  | svc : ServiceExpr → Expression
  | endpoint : EndpointExpr → Expression
  | fileServer : FileServerExpr → Expression
deriving DecidableEq

/-- The comparator closure passed to `sort.SliceStable` by `WalkSets`:
`less(i, j)` is true iff service `j`'s `ParentName` equals service `i`'s
`Name()`. -/
def svcLess (a b : ServiceExpr) : Bool :=
  if b.ParentName = a.Name then true else false

/-- Embedding of `(*RootExpr).WalkSets`: stable-sort the service slice in
place with `svcLess`, then build three expression sets — the sorted
services, all endpoints in sorted-service order then declaration order,
all file servers likewise — and invoke the callback on each in that
order.  The pure model returns the list of the three sets passed to the
callback (in call order) together with the mutated root. -/
def WalkSets (r : RootExpr) : List (List Expression) × RootExpr :=
  let sorted := sortSliceStable svcLess r.HTTPServices
  let services := sorted.map Expression.svc
  let endpoints := (sorted.map fun s => s.HTTPEndpoints.map Expression.endpoint).flatten
  let servers := (sorted.map fun s => s.FileServers.map Expression.fileServer).flatten
  ([services, endpoints, servers], { r with HTTPServices := sorted })

/-! ## Lemmas about splitOnChar -/

/-- Splitting a string that begins with a separator-free prefix `a`
followed by a separator yields `a` as first chunk. -/
theorem splitOnChar_append (sep : Char) (a rest : List Char) (h : sep ∉ a) :
    splitOnChar sep (a ++ sep :: rest) = a :: splitOnChar sep rest := by
  induction a with
  | nil => simp [splitOnChar]
  | cons c a ih =>
    have hc : c ≠ sep := fun hcs => h (hcs ▸ List.mem_cons_self c a)
    have ha : sep ∉ a := fun hs => h (List.mem_cons_of_mem c hs)
    simp [splitOnChar, hc, ih ha, consHead]

/-- Splitting a separator-free string yields that string as the only
chunk. -/
theorem splitOnChar_eq_single (sep : Char) (b : List Char) (h : sep ∉ b) :
    splitOnChar sep b = [b] := by
  induction b with
  | nil => simp [splitOnChar]
  | cons c b ih =>
    have hc : c ≠ sep := fun hcs => h (hcs ▸ List.mem_cons_self c b)
    have hb : sep ∉ b := fun hs => h (List.mem_cons_of_mem c hs)
    simp [splitOnChar, hc, ih hb, consHead]

/-- Claim C3 (amended): `NameMap` splits on every colon, not only the
first one.  With no colon both returned names equal the token; with at
least one colon the attribute name is the substring before the first
colon and the external name is the substring between the first and the
second colon (everything from the second colon on is dropped), so
`NameMap("a:b:c") = ("a","b")`. -/
theorem nameMap_split (s a b c : List Char) :
    (':' ∉ s → NameMap s = (s, s))
    ∧ (':' ∉ a → ':' ∉ b → NameMap (a ++ ':' :: b) = (a, b))
    ∧ (':' ∉ a → ':' ∉ b → NameMap (a ++ ':' :: (b ++ ':' :: c)) = (a, b)) := by
  refine ⟨fun hs => ?_, fun ha hb => ?_, fun ha hb => ?_⟩
  · simp [NameMap, splitOnChar_eq_single ':' s hs, List.getD]
  · rw [NameMap, splitOnChar_append ':' a b ha, splitOnChar_eq_single ':' b hb]
    simp [List.getD]
  · rw [NameMap, splitOnChar_append ':' a (b ++ ':' :: c) ha,
      splitOnChar_append ':' b c hb]
    simp [List.getD]

/-- Claim C3 witness: the amended claim instantiated at `"a:b:c"`. -/
theorem nameMap_split_witness :
    NameMap (['a'] ++ ':' :: ['b'] ++ ':' :: ['c']) = (['a'], ['b']) :=
  (nameMap_split [] ['a'] ['b'] ['c']).2.2 (by decide) (by decide)

/-- Claim C3 counterexample: on `"a:b:c"` the code returns `("a","b")`,
not the claimed `("a","b:c")` — `strings.Split` splits on every colon and
`elems[1]` is only the text between the first two. -/
theorem nameMap_counterexample :
    NameMap ("a:b:c".toList) = ("a".toList, "b".toList)
    ∧ NameMap ("a:b:c".toList) ≠ ("a".toList, "b:c".toList) := by
  exact ⟨by decide, by decide⟩

/-! ## Lemmas about the wildcard scanner -/

/-- A word character is not a slash, a brace or a star. -/
theorem isWordChar_ne (c : Char) (h : isWordChar c = true) :
    c ≠ '/' ∧ c ≠ '{' ∧ c ≠ '}' ∧ c ≠ '*' := by
  refine ⟨?_, ?_, ?_, ?_⟩ <;> rintro rfl <;> simp [isWordChar] at h

/-- `scanName` consumes exactly a word-character prefix, stopping at a
non-word head. -/
theorem scanName_eq (name s : List Char) (h : ∀ c ∈ name, isWordChar c = true)
    (hs : ∀ c, s.head? = some c → isWordChar c = false) :
    scanName (name ++ s) = (name, s) := by
  induction name with
  | nil =>
    cases s with
    | nil => rfl
    | cons c r => simp [scanName, hs c rfl]
  | cons c name ih =>
    have hc : isWordChar c = true := h c (List.mem_cons_self c name)
    have hn : ∀ c ∈ name, isWordChar c = true :=
      fun x hx => h x (List.mem_cons_of_mem c hx)
    simp [scanName, hc, ih hn]

/-- `tryMatchWildcard` succeeds exactly on a `{name}` or `{*name}` head
with a non-empty word-character name, capturing the name. -/
theorem tryMatchWildcard_eq (name s : List Char) (hne : name ≠ [])
    (h : ∀ c ∈ name, isWordChar c = true) :
    tryMatchWildcard ('{' :: (name ++ '}' :: s)) = some (name, s)
    ∧ tryMatchWildcard ('{' :: '*' :: (name ++ '}' :: s)) = some (name, s) := by
  have hscan : scanName (name ++ '}' :: s) = (name, '}' :: s) := by
    refine scanName_eq name ('}' :: s) h fun c hc => ?_
    simp only [List.head?] at hc
    cases hc
    decide
  obtain ⟨c, name', rfl⟩ : ∃ c name', name = c :: name' := by
    cases name with
    | nil => exact absurd rfl hne
    | cons c n => exact ⟨c, n, rfl⟩
  have hc : isWordChar c = true := h c (List.mem_cons_self c name')
  have hcstar : c ≠ '*' := (isWordChar_ne c hc).2.2.2
  have hscan' : scanName (c :: (name' ++ '}' :: s)) = (c :: name', '}' :: s) := by
    rw [← List.cons_append]
    exact hscan
  constructor
  · simp only [List.cons_append, tryMatchWildcard, dropStar, hcstar, if_neg,
      ite_false, hscan', closeWildcard]
    simp
  · simp only [List.cons_append, tryMatchWildcard, dropStar, ite_true, hscan',
      closeWildcard]
    simp

/-- Characters that are not slashes are skipped by the scanner (a match
can only begin at a `/`). -/
theorem scanWildcards_skip (l s : List Char) (h : ∀ c ∈ l, c ≠ '/') :
    scanWildcards (l ++ s) = scanWildcards s := by
  induction l with
  | nil => rfl
  | cons c l ih =>
    have hc : c ≠ '/' := h c (List.mem_cons_self c l)
    have hl : ∀ x ∈ l, x ≠ '/' := fun x hx => h x (List.mem_cons_of_mem c hx)
    simp only [List.cons_append, scanWildcards, hc, ite_false, if_neg]
    simpa using ih hl

/-- Consuming one wildcard marker: a `/{name}` or `/{*name}` marker at
the head contributes exactly its captured name, and scanning continues
with the rest of the path. -/
theorem scanWildcards_marker (name s : List Char) (hne : name ≠ [])
    (h : ∀ c ∈ name, isWordChar c = true) :
    scanWildcards ('/' :: '{' :: (name ++ '}' :: s)) = name :: scanWildcards s
    ∧ scanWildcards ('/' :: '{' :: '*' :: (name ++ '}' :: s))
      = name :: scanWildcards s := by
  have hskip : ∀ pre : List Char, (∀ c ∈ pre, c ≠ '/') →
      scanWildcards ('{' :: (pre ++ '}' :: s)) = scanWildcards s := by
    intro pre hpre
    have : ('{' :: (pre ++ '}' :: s) : List Char)
        = ('{' :: pre ++ ['}']) ++ s := by simp
    rw [this]
    refine scanWildcards_skip ('{' :: pre ++ ['}']) s fun c hc => ?_
    rcases List.mem_cons.1 hc with rfl | hc
    · decide
    · rcases List.mem_append.1 hc with hc | hc
      · exact hpre c hc
      · rcases List.mem_singleton.1 hc with rfl
        decide
  have hword : ∀ c ∈ name, c ≠ '/' := fun c hc => (isWordChar_ne c (h c hc)).1
  constructor
  · have hm := (tryMatchWildcard_eq name s hne h).1
    rw [scanWildcards, if_pos rfl, hm, scanStep, hskip name hword]
  · have hm := (tryMatchWildcard_eq name s hne h).2
    rw [scanWildcards, if_pos rfl, hm, scanStep]
    have heq : ('{' :: '*' :: (name ++ '}' :: s) : List Char)
        = '{' :: (('*' :: name) ++ '}' :: s) := by simp
    rw [heq, hskip ('*' :: name) ?_]
    intro c hc
    rcases List.mem_cons.1 hc with rfl | hc
    · decide
    · exact hword c hc

/-- Claim C7: `ExtractWildcards` returns the captured names of all
markers `/{name}` and `/{*name}` in left-to-right order of appearance,
duplicates preserved, and the empty sequence (never a failure) when no
marker is present: consuming a leading marker of either flavor prepends
exactly its name, `"/users/{id}/files/{*path}"` yields `["id","path"]`,
`"/static"` yields `[]`, and a duplicated name appears twice. -/
theorem extractWildcards_spec :
    (∀ name s : List Char, name ≠ [] → (∀ c ∈ name, isWordChar c = true) →
      ExtractWildcards ('/' :: '{' :: (name ++ '}' :: s))
        = name :: ExtractWildcards s
      ∧ ExtractWildcards ('/' :: '{' :: '*' :: (name ++ '}' :: s))
        = name :: ExtractWildcards s)
    ∧ ExtractWildcards "/users/{id}/files/{*path}".toList
      = ["id".toList, "path".toList]
    ∧ ExtractWildcards "/static".toList = []
    ∧ ExtractWildcards "/a/{id}/b/{id}".toList
      = ["id".toList, "id".toList] := by
  refine ⟨fun name s hne h => ?_, by decide, by decide, by decide⟩
  exact scanWildcards_marker name s hne h

/-- Claim C7 witness: the marker-consumption part instantiated at the
name `id` and an empty suffix. -/
theorem extractWildcards_spec_witness :
    ExtractWildcards ('/' :: '{' :: (['i', 'd'] ++ '}' :: []))
      = ['i', 'd'] :: ExtractWildcards [] :=
  (extractWildcards_spec.1 ['i', 'd'] [] (by decide) (by decide)).1

/-- The Boolean matcher agrees with non-emptiness of the scanner's match
list. -/
theorem wildcardMatch_iff (p : List Char) :
    wildcardMatch p = true ↔ scanWildcards p ≠ [] := by
  induction p with
  | nil => simp [wildcardMatch, scanWildcards]
  | cons c rest ih =>
    by_cases hc : c = '/'
    · subst hc
      cases hm : tryMatchWildcard rest with
      | none =>
        rw [wildcardMatch, if_pos rfl, hm, scanWildcards, if_pos rfl, hm, scanStep]
        simpa using ih
      | some q =>
        rw [wildcardMatch, if_pos rfl, hm, scanWildcards, if_pos rfl, hm, scanStep]
        simp
    · rw [wildcardMatch, if_neg hc, scanWildcards, if_neg hc]
      exact ih

/-- A file server whose finalized request path ends in a catch-all
wildcard (directory-serving example). -/
def fsAssetsDir : FileServerExpr :=
  { Description := [], FilePath := [],
    RequestPath := "/api/v1/assets/{*filepath}".toList }

/-- A file server whose finalized request path has no wildcard
(single-file example). -/
def fsLogo : FileServerExpr :=
  { Description := [], FilePath := [], RequestPath := "/api/v1/logo.png".toList }

/-- Claim C8: `IsDir` is true exactly when the (finalized) request path
contains at least one wildcard marker, i.e. iff `ExtractWildcards` of the
request path is non-empty; `"/api/v1/assets/{*filepath}"` reports true
and `"/api/v1/logo.png"` reports false. -/
theorem isDir_iff_wildcards (f : FileServerExpr) :
    (IsDir f = true ↔ ExtractWildcards f.RequestPath ≠ [])
    ∧ IsDir fsAssetsDir = true
    ∧ IsDir fsLogo = false := by
  exact ⟨wildcardMatch_iff f.RequestPath, by decide, by decide⟩

/-- Claim C8 witness: the equivalence instantiated at the directory
example. -/
theorem isDir_iff_wildcards_witness :
    ExtractWildcards "/api/v1/assets/{*filepath}".toList ≠ [] :=
  ((isDir_iff_wildcards fsAssetsDir).1).mp (by decide)

/-! ## Normalization properties of the path model -/

/-- A duplicated separator: two adjacent slashes somewhere in the
string. -/
def hasDupSlash : List Char → Bool
  | c1 :: c2 :: rest => (c1 == '/' && c2 == '/') || hasDupSlash (c2 :: rest)
  | _ => false

/-- A segment kept by the cleaner: non-empty and slash-free. -/
def goodSeg (s : List Char) : Prop :=
  s ≠ [] ∧ '/' ∉ s

/-- The chunks produced by splitting on a separator never contain the
separator. -/
theorem splitOnChar_sep_not_mem (sep : Char) (l : List Char) :
    ∀ seg ∈ splitOnChar sep l, sep ∉ seg := by
  induction l with
  | nil =>
    intro seg hseg
    simp only [splitOnChar, List.mem_singleton] at hseg
    simp [hseg]
  | cons c rest ih =>
    intro seg hseg
    by_cases hc : c = sep
    · simp only [splitOnChar, hc, ite_true] at hseg
      rcases List.mem_cons.1 hseg with rfl | hseg
      · simp
      · exact ih seg hseg
    · simp only [splitOnChar, hc, ite_false, if_neg] at hseg
      cases hsplit : splitOnChar sep rest with
      | nil => simp [hsplit, consHead] at hseg; simp [hseg, Ne.symm hc]
      | cons h t =>
        rw [hsplit] at hseg
        simp only [consHead] at hseg
        rcases List.mem_cons.1 hseg with rfl | hseg
        · intro hmem
          rcases List.mem_cons.1 hmem with hcs | hmem
          · exact hc hcs.symm
          · exact ih h (hsplit ▸ List.mem_cons_self h t) hmem
        · exact ih seg (hsplit ▸ List.mem_cons_of_mem h hseg)

/-- One cleaning step keeps every stack segment non-empty and
slash-free. -/
theorem cleanPush_good (rooted : Bool) (stack : List (List Char))
    (seg : List Char) (hstack : ∀ s ∈ stack, goodSeg s) (hseg : '/' ∉ seg) :
    ∀ s ∈ cleanPush rooted stack seg, goodSeg s := by
  intro s hs
  by_cases h1 : seg = [] ∨ seg = ['.']
  · rw [cleanPush.eq_def, if_pos h1] at hs
    exact hstack s hs
  · by_cases h2 : seg = ['.', '.']
    · subst h2
      cases stack with
      | nil =>
        cases rooted with
        | true =>
          have hred : cleanPush true [] ['.', '.'] = [] := rfl
          rw [hred] at hs
          simp at hs
        | false =>
          have hred : cleanPush false [] ['.', '.'] = [['.', '.']] := rfl
          rw [hred] at hs
          rcases List.mem_singleton.1 hs with rfl
          exact ⟨by decide, by decide⟩
      | cons top rest =>
        by_cases htop : top = ['.', '.']
        · subst htop
          have hred : cleanPush rooted (['.', '.'] :: rest) ['.', '.']
              = ['.', '.'] :: ['.', '.'] :: rest := rfl
          rw [hred] at hs
          rcases List.mem_cons.1 hs with rfl | hs
          · exact ⟨by decide, by decide⟩
          · exact hstack s hs
        · have hred : cleanPush rooted (top :: rest) ['.', '.']
              = if top = ['.', '.'] then ['.', '.'] :: top :: rest else rest :=
            rfl
          rw [hred, if_neg htop] at hs
          exact hstack s (List.mem_cons_of_mem top hs)
    · rw [cleanPush.eq_def, if_neg h1, if_neg h2] at hs
      rcases List.mem_cons.1 hs with rfl | hs
      · exact ⟨fun h0 => h1 (Or.inl h0), hseg⟩
      · exact hstack s hs

/-- Folding the cleaner over slash-free segments keeps the whole stack
non-empty and slash-free. -/
theorem foldl_cleanPush_good (rooted : Bool) (segs : List (List Char))
    (hsegs : ∀ seg ∈ segs, '/' ∉ seg) :
    ∀ stack, (∀ s ∈ stack, goodSeg s) →
      ∀ s ∈ segs.foldl (cleanPush rooted) stack, goodSeg s := by
  induction segs with
  | nil => intro stack hstack; simpa using hstack
  | cons seg segs ih =>
    intro stack hstack
    simp only [List.foldl_cons]
    refine ih (fun x hx => hsegs x (List.mem_cons_of_mem seg hx))
      (cleanPush rooted stack seg) ?_
    exact cleanPush_good rooted stack seg hstack
      (hsegs seg (List.mem_cons_self seg segs))

/-- Appending after a slash-free prefix cannot create a duplicated
slash pair inside or at the border of the prefix. -/
theorem hasDupSlash_append (s t : List Char) (h : '/' ∉ s) :
    hasDupSlash (s ++ t) = hasDupSlash t := by
  induction s with
  | nil => rfl
  | cons c s ih =>
    have hc : c ≠ '/' := fun hcs => h (hcs ▸ List.mem_cons_self c s)
    have hs : '/' ∉ s := fun hmem => h (List.mem_cons_of_mem c hmem)
    rw [List.cons_append]
    cases hst : s ++ t with
    | nil =>
      rcases List.append_eq_nil.1 hst with ⟨rfl, rfl⟩
      rfl
    | cons d r =>
      rw [hasDupSlash, ← hst, ih hs]
      have : (c == '/') = false := by simp [hc]
      simp [this]

/-- Prepending a slash to a string that does not begin with one cannot
create a duplicated slash pair. -/
theorem hasDupSlash_cons_slash (t : List Char) (ht : t.head? ≠ some '/') :
    hasDupSlash ('/' :: t) = hasDupSlash t := by
  cases t with
  | nil => rfl
  | cons d r =>
    have hd : d ≠ '/' := fun hds => ht (by simp [hds])
    rw [hasDupSlash]
    have : (d == '/') = false := by simp [hd]
    simp [this]

/-- A string without any slash has no duplicated slash. -/
theorem hasDupSlash_of_no_slash (s : List Char) (h : '/' ∉ s) :
    hasDupSlash s = false := by
  have := hasDupSlash_append s [] h
  simpa using this

/-- Joining good segments never begins with a slash. -/
theorem joinSegs_head (segs : List (List Char)) (h : ∀ s ∈ segs, goodSeg s) :
    (joinSegs segs).head? ≠ some '/' := by
  cases segs with
  | nil => simp [joinSegs]
  | cons s rest =>
    obtain ⟨hne, hmem⟩ := h s (List.mem_cons_self s rest)
    obtain ⟨c, s', rfl⟩ : ∃ c s', s = c :: s' := by
      cases s with
      | nil => exact absurd rfl hne
      | cons c s' => exact ⟨c, s', rfl⟩
    have hc : c ≠ '/' := fun hcs => hmem (hcs ▸ List.mem_cons_self c s')
    cases rest with
    | nil => simpa [joinSegs] using hc
    | cons s2 rest2 => simpa [joinSegs] using hc

/-- Joining good segments never contains a duplicated slash. -/
theorem joinSegs_nodup (segs : List (List Char)) (h : ∀ s ∈ segs, goodSeg s) :
    hasDupSlash (joinSegs segs) = false := by
  induction segs with
  | nil => rfl
  | cons s rest ih =>
    obtain ⟨hne, hmem⟩ := h s (List.mem_cons_self s rest)
    cases rest with
    | nil => simpa [joinSegs] using hasDupSlash_of_no_slash s hmem
    | cons s2 rest2 =>
      have hr : ∀ x ∈ s2 :: rest2, goodSeg x :=
        fun x hx => h x (List.mem_cons_of_mem s hx)
      have hjoin : joinSegs (s :: s2 :: rest2)
          = s ++ '/' :: joinSegs (s2 :: rest2) := rfl
      rw [hjoin, hasDupSlash_append s ('/' :: joinSegs (s2 :: rest2)) hmem,
        hasDupSlash_cons_slash _ (joinSegs_head (s2 :: rest2) hr)]
      exact ih hr

/-- The cleaned segment stack consists of good segments whenever the
input segments are slash-free. -/
theorem cleanStack_good (rooted : Bool) (segs : List (List Char))
    (hsegs : ∀ seg ∈ segs, '/' ∉ seg) :
    ∀ s ∈ cleanStack rooted segs, goodSeg s := by
  intro s hs
  exact foldl_cleanPush_good rooted segs hsegs [] (by simp) s
    (List.mem_reverse.1 hs)

/-- The cleaned path never contains a duplicated slash. -/
theorem pathClean_nodup (p : List Char) :
    hasDupSlash (pathClean p) = false := by
  by_cases hp : p = []
  · rw [pathClean, if_pos hp]; rfl
  · simp only [pathClean, if_neg hp]
    have hstack : ∀ b : Bool, ∀ s ∈ cleanStack b (splitOnChar '/' p), goodSeg s :=
      fun b => cleanStack_good b (splitOnChar '/' p)
        (splitOnChar_sep_not_mem '/' p)
    split
    · rw [hasDupSlash_cons_slash _ (joinSegs_head _ (hstack _))]
      exact joinSegs_nodup _ (hstack _)
    · split
      · rfl
      · exact joinSegs_nodup _ (hstack _)

/-- The joined path never contains a duplicated slash. -/
theorem pathJoin_nodup (elems : List (List Char)) :
    hasDupSlash (pathJoin elems) = false := by
  rw [pathJoin]
  cases hd : elems.dropWhile List.isEmpty with
  | nil => rfl
  | cons e es => exact pathClean_nodup _

/-- The declared-path fixture of the normalization example: declared
request path `assets` before finalization. -/
def fsDeclAssets : FileServerExpr :=
  { Description := [], FilePath := [], RequestPath := "assets".toList }

/-- Claim C5: after `Finalize` the request path is the join of the root
prefix, the service prefix and the declared path, normalized to exactly
one leading slash — it starts with `/`, the character after a `/` is
never another `/` (no duplicated separators) — and the example
`/api` + `v1` + `assets` finalizes to `/api/v1/assets`. -/
theorem finalize_normalized (rootPath svcPath : List Char)
    (f : FileServerExpr) :
    ((Finalize rootPath svcPath f).RequestPath.head? = some '/')
    ∧ hasDupSlash (Finalize rootPath svcPath f).RequestPath = false
    ∧ (Finalize "/api".toList "v1".toList fsDeclAssets).RequestPath
      = "/api/v1/assets".toList := by
  refine ⟨?_, ?_, by decide⟩
  · simp only [Finalize]
    split
    · assumption
    · rfl
  · simp only [Finalize]
    split
    · exact pathJoin_nodup _
    · rename_i hj
      rw [hasDupSlash_cons_slash _ hj]
      exact pathJoin_nodup _

/-! ## The stable sort permutes -/

/-- Inserting into the reversed prefix yields a permutation of pushing in
front. -/
theorem insertRev_perm {α : Type} (less : α → α → Bool) (x : α)
    (l : List α) : (insertRev less x l).Perm (x :: l) := by
  induction l with
  | nil => exact List.Perm.refl _
  | cons d ds ih =>
    rw [insertRev]
    split
    · exact (ih.cons d).trans (List.Perm.swap x d ds)
    · exact List.Perm.refl _

/-- The insertion-sort fold permutes its input after the accumulator. -/
theorem foldl_insertRev_perm {α : Type} (less : α → α → Bool)
    (l : List α) : ∀ acc : List α,
    ((l.foldl (fun acc x => (insertRev less x acc.reverse).reverse)
      acc)).Perm (acc ++ l) := by
  induction l with
  | nil => intro acc; simp
  | cons x xs ih =>
    intro acc
    rw [List.foldl_cons]
    refine (ih _).trans ?_
    have h1 : ((insertRev less x acc.reverse).reverse).Perm (x :: acc) :=
      ((List.reverse_perm _).trans (insertRev_perm less x acc.reverse)).trans
        ((List.reverse_perm acc).cons x)
    exact (h1.append_right xs).trans List.perm_middle.symm

/-- The modelled `sort.SliceStable` returns a permutation of its
input. -/
theorem sortSliceStable_perm {α : Type} (less : α → α → Bool)
    (l : List α) : (sortSliceStable less l).Perm l := by
  simpa using foldl_insertRev_perm less l []

/-! ## WalkSets: C4 and C1 -/

/-- Claim C4: `WalkSets` passes exactly three expression sets to the
callback, in the fixed order sorted services, then all their endpoints
flattened in sorted-service order then declaration order, then all their
file servers flattened the same way; it is a total function (no failure
outcome), the service list it stores back is the very list of the first
batch, it is a permutation of the input list, and no other root field
changes. -/
theorem walkSets_three_batches (r : RootExpr) :
    (WalkSets r).1
      = [(WalkSets r).2.HTTPServices.map Expression.svc,
        ((WalkSets r).2.HTTPServices.map
          fun s => s.HTTPEndpoints.map Expression.endpoint).flatten,
        ((WalkSets r).2.HTTPServices.map
          fun s => s.FileServers.map Expression.fileServer).flatten]
    ∧ (WalkSets r).1.length = 3
    ∧ ((WalkSets r).2.HTTPServices).Perm r.HTTPServices
    ∧ (WalkSets r).2
      = { r with HTTPServices := (WalkSets r).2.HTTPServices } := by
  exact ⟨rfl, rfl, sortSliceStable_perm svcLess r.HTTPServices, rfl⟩

/-- A child service declaring parent `p`. -/
def svcChild : ServiceExpr :=
  { Name := ['c'], ParentName := ['p'], Path := [],
    HTTPEndpoints := [], FileServers := [] }

/-- A root-level service unrelated to the other two. -/
def svcOther : ServiceExpr :=
  { Name := ['x'], ParentName := [], Path := [],
    HTTPEndpoints := [], FileServers := [] }

/-- The parent service of `svcChild`. -/
def svcParent : ServiceExpr :=
  { Name := ['p'], ParentName := [], Path := [],
    HTTPEndpoints := [], FileServers := [] }

/-- A root declaring the three services in the order child, unrelated,
parent. -/
def rootCXP : RootExpr :=
  { Design := none, Path := [], Consumes := [], Produces := [],
    HTTPServices := [svcChild, svcOther, svcParent],
    params := none, headers := none }

/-- Claim C1 counterexample: a single-level set of three services — the
child `c` with parent `p`, an unrelated root service `x`, the parent `p`
— declared in the order `[c, x, p]`.  The comparator only moves a
service past an immediately adjacent child, so the sorted batch is still
`[c, x, p]`: the parent does not precede its direct child in the batch
passed to the first callback invocation. -/
theorem walkSets_parent_order_counterexample :
    (svcChild.ParentName = svcParent.Name
      ∧ svcOther.ParentName = [] ∧ svcParent.ParentName = []
      ∧ svcChild.Name ≠ svcParent.Name ∧ svcChild.Name ≠ svcOther.Name
      ∧ svcOther.Name ≠ svcParent.Name)
    ∧ (WalkSets rootCXP).2.HTTPServices = [svcChild, svcOther, svcParent]
    ∧ ((WalkSets rootCXP).1.headD []).indexOf (Expression.svc svcChild)
      < ((WalkSets rootCXP).1.headD []).indexOf (Expression.svc svcParent) := by
  exact ⟨by decide, by decide, by decide⟩

/-- Claim C1 (amended): the parent-precedes-child guarantee does hold
when the child is immediately followed by its parent and they are the
only services: for any two services where the child declares the
parent's name, `WalkSets` sorts the pair parent first.  (With a service
unrelated to both standing between child and parent the comparator never
compares them and the child stays first, as the counterexample shows.) -/
theorem walkSets_pair_parent_first (c p : ServiceExpr) (r : RootExpr)
    (hparent : c.ParentName = p.Name) (hsvcs : r.HTTPServices = [c, p]) :
    (WalkSets r).1.headD [] = [Expression.svc p, Expression.svc c]
    ∧ (WalkSets r).2.HTTPServices = [p, c] := by
  have hsort : sortSliceStable svcLess [c, p] = [p, c] := by
    simp [sortSliceStable, insertRev, svcLess, hparent]
  constructor
  · show ((sortSliceStable svcLess r.HTTPServices).map Expression.svc
      :: _).headD [] = _
    rw [hsvcs, hsort]
    rfl
  · show sortSliceStable svcLess r.HTTPServices = [p, c]
    rw [hsvcs, hsort]

/-- A root declaring only the child and then its parent. -/
def rootPairCP : RootExpr :=
  { Design := none, Path := [], Consumes := [], Produces := [],
    HTTPServices := [svcChild, svcParent], params := none, headers := none }

/-- Claim C1 witness: the amended claim instantiated at the two-service
root. -/
theorem walkSets_pair_parent_first_witness :
    (WalkSets rootPairCP).1.headD []
      = [Expression.svc svcParent, Expression.svc svcChild]
    ∧ (WalkSets rootPairCP).2.HTTPServices = [svcParent, svcChild] :=
  walkSets_pair_parent_first svcChild svcParent rootPairCP (by decide) rfl

/-! ## Schemes: C9 and C2 -/

/-- When every server URL parses, the loop completes and the scheme set
is exactly the accumulator it started from: the success branch inserts
nothing. -/
theorem collectSchemes_ok_of_all (parse : List Char → Option URLExpr)
    (ss : List ServerExpr) (acc : List (List Char))
    (h : ∀ s ∈ ss, (parse s.URL).isSome = true) :
    collectSchemes parse ss acc = GoResult.ok acc := by
  induction ss with
  | nil => rfl
  | cons s rest ih =>
    have hh := h s (List.mem_cons_self s rest)
    cases hp : parse s.URL with
    | none => rw [hp] at hh; simp at hh
    | some u =>
      simp only [collectSchemes, hp]
      exact ih fun x hx => h x (List.mem_cons_of_mem s hx)

/-- When some server URL fails to parse, the loop faults on the nil
dereference. -/
theorem collectSchemes_nilDeref_of_exists (parse : List Char → Option URLExpr)
    (ss : List ServerExpr) (acc : List (List Char))
    (h : ∃ s ∈ ss, parse s.URL = none) :
    collectSchemes parse ss acc = GoResult.nilDeref := by
  induction ss with
  | nil => simp at h
  | cons s rest ih =>
    rcases h with ⟨t, ht, hnone⟩
    rcases List.mem_cons.1 ht with rfl | ht
    · simp only [collectSchemes, hnone]
    · cases hp : parse s.URL with
      | none => simp only [collectSchemes, hp]
      | some u =>
        simp only [collectSchemes, hp]
        exact ih ⟨t, ht, hnone⟩

/-- If the loop completes normally, the scheme set is unchanged. -/
theorem collectSchemes_ok_inv (parse : List Char → Option URLExpr)
    (ss : List ServerExpr) (acc l : List (List Char))
    (h : collectSchemes parse ss acc = GoResult.ok l) : l = acc := by
  induction ss with
  | nil =>
    rw [collectSchemes] at h
    cases h
    rfl
  | cons s rest ih =>
    cases hp : parse s.URL with
    | none =>
      simp only [collectSchemes, hp] at h
      cases h
    | some u =>
      simp only [collectSchemes, hp] at h
      exact ih h

/-- If the loop faults, some server URL failed to parse. -/
theorem collectSchemes_nilDeref_inv (parse : List Char → Option URLExpr)
    (ss : List ServerExpr) (acc : List (List Char))
    (h : collectSchemes parse ss acc = GoResult.nilDeref) :
    ∃ s ∈ ss, parse s.URL = none := by
  induction ss with
  | nil =>
    rw [collectSchemes] at h
    cases h
  | cons s rest ih =>
    cases hp : parse s.URL with
    | none => exact ⟨s, List.mem_cons_self s rest, hp⟩
    | some u =>
      simp only [collectSchemes, hp] at h
      rcases ih h with ⟨t, ht, hnone⟩
      exact ⟨t, List.mem_cons_of_mem s ht, hnone⟩

/-- Any normal return of `Schemes` is the nil/empty list (helper shared
by the Schemes theorems). -/
theorem schemes_ok_imp_nil (parse : List Char → Option URLExpr)
    (r : RootExpr) (l : List (List Char))
    (h : Schemes parse r = GoResult.ok l) : l = [] := by
  cases hD : r.Design with
  | none =>
    simp only [Schemes, hD] at h
    cases h
    rfl
  | some d =>
    simp only [Schemes, hD] at h
    cases hc : collectSchemes parse d.API.Servers [] with
    | nilDeref => rw [hc] at h; cases h
    | ok schemes =>
      have hsch : schemes = [] := collectSchemes_ok_inv parse _ _ _ hc
      subst hsch
      rw [hc] at h
      simp at h
      cases h
      rfl

/-- Claim C9: the scheme-collecting branch of `Schemes` is entered
exactly when URL parsing reports an error, and there the parsed value is
nil, so reading its scheme faults; consequently a root all of whose
server URLs parse successfully yields nil (the empty list), `Schemes`
never returns a non-empty list at all, and any failing server URL makes
the call fault. -/
theorem schemes_nil_unless_nilDeref (parse : List Char → Option URLExpr)
    (r : RootExpr) :
    ((∀ s ∈ rootServers r, (parse s.URL).isSome = true) →
      Schemes parse r = GoResult.ok [])
    ∧ (∀ l, Schemes parse r = GoResult.ok l → l = [])
    ∧ ((∃ s ∈ rootServers r, parse s.URL = none) →
      Schemes parse r = GoResult.nilDeref) := by
  cases hD : r.Design with
  | none =>
    refine ⟨fun _ => ?_, fun l hl => ?_, fun hex => ?_⟩
    · simp [Schemes, hD]
    · exact schemes_ok_imp_nil parse r l hl
    · rcases hex with ⟨s, hs, _⟩
      simp [rootServers, hD] at hs
  | some d =>
    have hserv : rootServers r = d.API.Servers := by simp [rootServers, hD]
    refine ⟨fun hall => ?_, fun l hl => ?_, fun hex => ?_⟩
    · rw [hserv] at hall
      simp only [Schemes, hD, collectSchemes_ok_of_all parse _ [] hall]
      rfl
    · exact schemes_ok_imp_nil parse r l hl
    · rw [hserv] at hex
      simp only [Schemes, hD,
        collectSchemes_nilDeref_of_exists parse _ [] hex]

/-- Model of the Go `net/url.Parse` oracle used for concrete inputs: it
fails exactly on strings containing an ASCII control character (one of
the real error modes of `url.Parse`, which then returns a nil pointer),
and otherwise succeeds, reporting the text before the first colon as the
scheme. -/
def urlParseModel (s : List Char) : Option URLExpr :=
  if s.any (fun c => c.toNat < 32) then none
  else some { Scheme := s.takeWhile (fun c => c ≠ ':') }

/-- A root with one well-formed server URL. -/
def rootGoodServer : RootExpr :=
  { Design := some { API := { Servers := [{ URL := "https://example.com".toList }] } },
    Path := [], Consumes := [], Produces := [], HTTPServices := [],
    params := none, headers := none }

/-- Claim C9 witness: on a root whose only server URL parses, `Schemes`
returns nil. -/
theorem schemes_nil_unless_nilDeref_witness :
    Schemes urlParseModel rootGoodServer = GoResult.ok [] :=
  (schemes_nil_unless_nilDeref urlParseModel rootGoodServer).1 (by decide)

/-- The malformed server of the C2 counterexample: its URL contains a
control character, so `url.Parse` reports an error (and returns nil). -/
def srvBad : ServerExpr :=
  { URL := "http://exa\nmple.com".toList }

/-- A root with one malformed server URL. -/
def rootBadServer : RootExpr :=
  { Design := some { API := { Servers := [srvBad] } },
    Path := [], Consumes := [], Produces := [], HTTPServices := [],
    params := none, headers := none }

/-- Claim C2 counterexample: on a root whose only server URL is
malformed (scheme text `http`), `Schemes` does not collect the scheme
into a result at all — the collecting branch dereferences the nil parse
result, so the call faults and in particular neither `["http"]` nor any
empty result is returned. -/
theorem schemes_counterexample :
    Schemes urlParseModel rootBadServer = GoResult.nilDeref
    ∧ Schemes urlParseModel rootBadServer ≠ GoResult.ok ["http".toList]
    ∧ Schemes urlParseModel rootBadServer ≠ GoResult.ok [] := by
  exact ⟨by decide, by decide, by decide⟩

/-- Claim C2 (amended): `Schemes` never collects any scheme.  It faults
on a nil dereference exactly when the design is present and some server
URL fails to parse; in every other case (no design, no servers, or all
URLs parsing) it returns nil, and every normal return is the nil/empty
list — deduplication and sorting are dead code. -/
theorem schemes_never_collects (parse : List Char → Option URLExpr)
    (r : RootExpr) :
    (Schemes parse r = GoResult.nilDeref ↔
      ∃ d, r.Design = some d ∧ ∃ s ∈ d.API.Servers, parse s.URL = none)
    ∧ (∀ l, Schemes parse r = GoResult.ok l → l = []) := by
  constructor
  · cases hD : r.Design with
    | none =>
      constructor
      · intro h
        simp only [Schemes, hD] at h
        cases h
      · rintro ⟨d, hd, -⟩
        cases hd
    | some d =>
      constructor
      · intro h
        cases hc : collectSchemes parse d.API.Servers [] with
        | ok schemes =>
          have h2 : Schemes parse r
              = (if schemes.isEmpty then GoResult.ok []
                else GoResult.ok (sortStrings schemes)) := by
            simp [Schemes, hD, hc]
          rw [h2] at h
          by_cases he : schemes.isEmpty = true
          · rw [if_pos he] at h; cases h
          · rw [if_neg he] at h; cases h
        | nilDeref =>
          exact ⟨d, rfl, collectSchemes_nilDeref_inv parse _ _ hc⟩
      · rintro ⟨d', hd', hex⟩
        cases hd'
        simp [Schemes, hD, collectSchemes_nilDeref_of_exists parse _ [] hex]
  · exact fun l => schemes_ok_imp_nil parse r l

/-- Claim C2 witness: the amended characterization applied to the
malformed-URL root. -/
theorem schemes_never_collects_witness :
    Schemes urlParseModel rootBadServer = GoResult.nilDeref :=
  (schemes_never_collects urlParseModel rootBadServer).1.mpr
    ⟨{ API := { Servers := [srvBad] } }, rfl, srvBad, by decide, by decide⟩

/-! ## Headers / Params: C6 and C10 -/

/-- Claim C6: `Headers` and `Params` are idempotent lazy accessors.  On
a root whose field is nil the first call allocates the empty
object-typed container and stores it (afterwards the field is never
nil); calling again returns the same container and leaves the root
unchanged; and an attribute attached through the returned container
reference is visible through the container a later call returns. -/
theorem headers_params_lazy_idempotent (r : RootExpr) (n : List Char) :
    ((Headers r).2.headers = some (Headers r).1
      ∧ (r.headers = none → (Headers r).1 = { typ := DataType.object [] })
      ∧ Headers (Headers r).2 = ((Headers r).1, (Headers r).2)
      ∧ (Headers (attachHeader (Headers r).2 n)).1
        = { typ := addField (Headers r).1.typ n })
    ∧ ((Params r).2.params = some (Params r).1
      ∧ (r.params = none → (Params r).1 = { typ := DataType.object [] })
      ∧ Params (Params r).2 = ((Params r).1, (Params r).2)
      ∧ (Params (attachParam (Params r).2 n)).1
        = { typ := addField (Params r).1.typ n }) := by
  constructor
  · cases hh : r.headers with
    | none => simp [Headers, hh, attachHeader]
    | some a => simp [Headers, hh, attachHeader]
  · cases hp : r.params with
    | none => simp [Params, hp, attachParam]
    | some a => simp [Params, hp, attachParam]

/-- A freshly constructed root: no design, no declarations, both
containers nil. -/
def freshRoot : RootExpr :=
  { Design := none, Path := [], Consumes := [], Produces := [],
    HTTPServices := [], params := none, headers := none }

/-- Claim C6 witness: on the fresh root the first calls return the empty
object-typed containers. -/
theorem headers_params_lazy_idempotent_witness :
    (Headers freshRoot).1 = { typ := DataType.object [] }
    ∧ (Params freshRoot).1 = { typ := DataType.object [] } :=
  ⟨(headers_params_lazy_idempotent freshRoot []).1.2.1 rfl,
    (headers_params_lazy_idempotent freshRoot []).2.2.1 rfl⟩

/-- Claim C10: `MappedHeaders` and `MappedParams` read the raw
`headers`/`params` fields without the lazy initialization `Headers` and
`Params` perform and leave the root unchanged; called before any
`Headers`/`Params` call they wrap a nil attribute, not an empty
container. -/
theorem mapped_headers_params_no_init (r : RootExpr) :
    ((MappedHeaders r).2 = r ∧ (MappedParams r).2 = r)
    ∧ ((MappedHeaders r).1 = NewMappedAttributeExpr r.headers
      ∧ (MappedParams r).1 = NewMappedAttributeExpr r.params)
    ∧ (r.headers = none → (MappedHeaders r).1.att = none)
    ∧ (r.params = none → (MappedParams r).1.att = none) := by
  refine ⟨⟨rfl, rfl⟩, ⟨rfl, rfl⟩, fun h => ?_, fun h => ?_⟩
  · simp [MappedHeaders, NewMappedAttributeExpr, h]
  · simp [MappedParams, NewMappedAttributeExpr, h]

/-- Claim C10 witness: on the fresh root both mapped views wrap nil. -/
theorem mapped_headers_params_no_init_witness :
    (MappedHeaders freshRoot).1.att = none
    ∧ (MappedParams freshRoot).1.att = none :=
  ⟨(mapped_headers_params_no_init freshRoot).2.2.1 rfl,
    (mapped_headers_params_no_init freshRoot).2.2.2 rfl⟩

end GoaHTTPDesign
